import Mathlib

/-!
Shallow embedding of the multinomial mixture model of
`src/CGMMTF/MultinomialMixtureTF.py` (class `MultinomialMixture`).

Conventions of the embedding:
* machine floats become exact rationals (`ℚ`); all claimed identities are
  stated in exact arithmetic, as the specification does;
* an observation batch is a list of symbols; the in-range pipeline uses
  `Fin K` symbols, while the raw pipeline (`gather_emission_rows` and
  friends) takes plain naturals and models the bounds failure of
  `tf.gather_nd` as `none`;
* the per-batch expected-log-likelihood contribution
  `reduce_sum(posterior * log numerator)` contains a transcendental `log`,
  so the trainer is parametrised by an oracle `L` giving each batch's
  contribution; every claim about the trainer is independent of `L`'s value;
* `none` in `TrainState.old_likelihood` stands for the initial `-np.inf`,
  and `none` in `TrainState.delta` stands for `+np.inf`.
-/

/-- Current model parameters: the variables `self.prior` (length `C`) and
`self.emission` (`K × C`) of `MultinomialMixture.__init__`. -/
@[ext]
structure MixtureParameters (C K : ℕ) where
  prior : Fin C → ℚ
  emission : Fin K → Fin C → ℚ

/-- Sufficient-statistics accumulator: the variables `prior_num_acc`,
`prior_den_acc` (a single cell), `emission_num_acc` (`K × C`) and
`emission_den_acc` (one cell per state) of `MultinomialMixture.__init__`. -/
@[ext]
structure Accumulator (C K : ℕ) where
  prior_numerator : Fin C → ℚ
  prior_denominator : ℚ
  emission_numerator : Fin K → Fin C → ℚ
  emission_denominator : Fin C → ℚ

/-- Initial value of the accumulator variables: every cell of the numerators
holds the smoothing constant, `prior_den_acc` holds `smoothing * C` and each
cell of `emission_den_acc` holds `smoothing * K`
(`MultinomialMixtureTF.py`, lines 43-50). -/
def init_accumulator (C K : ℕ) (smoothing : ℚ) : Accumulator C K where
  prior_numerator := fun _ => smoothing
  prior_denominator := smoothing * (C : ℚ)
  emission_numerator := fun _ _ => smoothing
  emission_denominator := fun _ => smoothing * (K : ℚ)

/-- One entry of the E-step tensor
`numerator = emission_for_labels * reshape(prior, [1, C])`:
the row gathered for label `v`, multiplied pointwise by the prior. -/
def numerator_row {C K : ℕ} (p : MixtureParameters C K) (v : Fin K) (c : Fin C) : ℚ :=
  p.emission v c * p.prior c

/-- One entry of the E-step tensor
`denominator = matmul(emission_for_labels, reshape(prior, [C, 1]))`:
the inner product of the gathered emission row with the prior. -/
def denominator_row {C K : ℕ} (p : MixtureParameters C K) (v : Fin K) : ℚ :=
  ∑ c, numerator_row p v c

/-- One entry of `posterior_estimate = divide(numerator, denominator)`. -/
def posterior_row {C K : ℕ} (p : MixtureParameters C K) (v : Fin K) (c : Fin C) : ℚ :=
  numerator_row p v c / denominator_row p v

/-- The `U × C` tensor `posterior_estimate` for one batch of labels,
as the list of its rows. -/
def posterior_estimate {C K : ℕ} (p : MixtureParameters C K) (batch : List (Fin K)) :
    List (Fin C → ℚ) :=
  batch.map (fun v c => posterior_row p v c)

/-- The effect of one joint run of the four per-minibatch accumulation ops
`update_prior_num`, `update_prior_den`, `update_emission_num` and
`update_emission_den` (`build_computation_graph`, lines 81-89):
* `prior_num_acc += reduce_sum(posterior_estimate, axis=0)`;
* `prior_den_acc += reduce_sum(posterior_estimate)`;
* `emission_num_acc += scatter_add` of each posterior row into the row of
  its label (realised here by zipping the posterior rows with the labels);
* `emission_den_acc += reduce_sum(posterior_estimate, axis=0)`. -/
def m_step_accumulate {C K : ℕ} (p : MixtureParameters C K) (acc : Accumulator C K)
    (batch : List (Fin K)) : Accumulator C K :=
  let post := posterior_estimate p batch
  { prior_numerator := fun c => acc.prior_numerator c + (post.map (fun r => r c)).sum
    prior_denominator := acc.prior_denominator + (post.map (fun r => ∑ c, r c)).sum
    emission_numerator := fun w c => acc.emission_numerator w c +
      ((post.zip batch).map (fun q => if q.2 = w then q.1 c else 0)).sum
    emission_denominator := fun c => acc.emission_denominator c + (post.map (fun r => r c)).sum }

/-- The end-of-epoch parameter update `update_prior` / `update_emission`
(`build_computation_graph`, lines 92-93): the new prior is
`prior_num_acc / prior_den_acc` (the scalar denominator broadcast over all
states) and the new emission is `emission_num_acc / emission_den_acc`
(each column divided by its own denominator cell). -/
def m_step_finalize {C K : ℕ} (acc : Accumulator C K) : MixtureParameters C K where
  prior := fun c => acc.prior_numerator c / acc.prior_denominator
  emission := fun v c => acc.emission_numerator v c / acc.emission_denominator c

/-- Accumulator reached from the initial value by a sequence of
`m_step_accumulate` runs, each against its own (possibly different)
parameters, exactly as successive epochs of `train` do. -/
def run_steps (C K : ℕ) (smoothing : ℚ)
    (steps : List (MixtureParameters C K × List (Fin K))) : Accumulator C K :=
  steps.foldl (fun a q => m_step_accumulate q.1 a q.2) (init_accumulator C K smoothing)

/-- One epoch's worth of accumulation: every minibatch of the dataset is
folded into the incoming accumulator, against parameters that stay fixed
for the whole epoch (the inner `while True` loop of `train`). -/
def run_epoch_accumulate {C K : ℕ} (p : MixtureParameters C K) (acc : Accumulator C K)
    (batches : List (List (Fin K))) : Accumulator C K :=
  batches.foldl (m_step_accumulate p) acc

/-- Index of the first maximum of a list, the semantics of
`tf.argmax(..., axis=1)` / `np.argmax` on one row: a later entry replaces
the current best only when strictly greater, so ties keep the lowest index.
The `[]` case is arbitrary (the library op errors on an empty axis); no
theorem below uses it. -/
def np_argmax : List ℚ → ℕ
  | [] => 0
  | [_] => 0
  | x :: y :: l =>
    if x < (y :: l).getD (np_argmax (y :: l)) 0 then np_argmax (y :: l) + 1 else 0

/-- The E-step numerator row for label `v`, laid out as a list over the `C`
states (the row of the tensor that `inference = tf.argmax(numerator, axis=1)`
scans). -/
def numerator_list {C K : ℕ} (p : MixtureParameters C K) (v : Fin K) : List ℚ :=
  (List.finRange C).map (fun c => numerator_row p v c)

/-- The hidden state inferred for a single example: `argmax` over the
numerator row of its label. -/
def inference_row {C K : ℕ} (p : MixtureParameters C K) (v : Fin K) : ℕ :=
  np_argmax (numerator_list p v)

/-- The op `inference` applied to one batch: one state index per example,
in batch order. -/
def inference_batch {C K : ℕ} (p : MixtureParameters C K) (batch : List (Fin K)) : List ℕ :=
  batch.map (inference_row p)

/-- `MultinomialMixture.perform_inference` (lines 150-179): `predictions`
starts as the sentinel `None`; for every batch in order, the inferred states
are either taken as the first value or appended; the sentinel is returned
unchanged when the dataset yields no batch. -/
def perform_inference {C K : ℕ} (p : MixtureParameters C K)
    (batches : List (List (Fin K))) : Option (List ℕ) :=
  batches.foldl
    (fun predictions batch =>
      match predictions with
      | none => some (inference_batch p batch)
      | some ps => some (ps ++ inference_batch p batch))
    none

/-- The gather `emission_for_labels = tf.gather_nd(self.emission, self.labels)`
on a batch of raw (unchecked) integer labels. `tf.gather_nd` fails with an
invalid-argument error on an out-of-range index; that failure is modelled as
`none`, so an out-of-range label never yields an emission row. -/
def gather_emission_rows {C K : ℕ} (p : MixtureParameters C K) :
    List ℕ → Option (List (Fin C → ℚ))
  | [] => some []
  | v :: rest =>
    if h : v < K then
      (gather_emission_rows p rest).map (fun rs => (fun c => p.emission ⟨v, h⟩ c) :: rs)
    else none

/-- The E-step on raw labels: the posterior rows are computed from the
gathered emission rows; a gather failure propagates. -/
def e_step_raw {C K : ℕ} (p : MixtureParameters C K) (labels : List ℕ) :
    Option (List (Fin C → ℚ)) :=
  (gather_emission_rows p labels).map
    (fun rows => rows.map (fun r c => r c * p.prior c / ∑ x, r x * p.prior x))

/-- The four accumulation ops applied to already-computed posterior rows and
their raw labels (the scatter is keyed by the raw label value). -/
def scatter_posts {C K : ℕ} (acc : Accumulator C K) (posts : List (Fin C → ℚ))
    (labels : List ℕ) : Accumulator C K where
  prior_numerator := fun c => acc.prior_numerator c + (posts.map (fun r => r c)).sum
  prior_denominator := acc.prior_denominator + (posts.map (fun r => ∑ c, r c)).sum
  emission_numerator := fun w c => acc.emission_numerator w c +
    ((posts.zip labels).map (fun q => if q.2 = w.val then q.1 c else 0)).sum
  emission_denominator := fun c => acc.emission_denominator c + (posts.map (fun r => r c)).sum

/-- The whole per-minibatch step of `train` on a raw batch: E-step (gather
included) followed by accumulation; any gather failure aborts the batch. -/
def train_batch_raw {C K : ℕ} (p : MixtureParameters C K) (acc : Accumulator C K)
    (labels : List ℕ) : Option (Accumulator C K) :=
  (e_step_raw p labels).map (fun posts => scatter_posts acc posts labels)

/-- The per-batch step of `perform_inference` on a raw batch: gather, then
argmax of each numerator row; a gather failure aborts the batch. -/
def inference_batch_raw {C K : ℕ} (p : MixtureParameters C K) (labels : List ℕ) :
    Option (List ℕ) :=
  (gather_emission_rows p labels).map
    (fun rows => rows.map (fun r => np_argmax ((List.finRange C).map (fun c => r c * p.prior c))))

/-- Sizes fixed by `MultinomialMixture.__init__` on success (the randomly
initialised prior/emission values are abstracted away; the deterministic
accumulator initial value is `init_accumulator`). -/
structure ModelShape where
  C : ℕ
  K : ℕ
  smoothing : ℚ
deriving DecidableEq

/-- `MultinomialMixture.__init__` as observed from its caller: the body
contains no validation of `c` or `k`; construction fails only when a
negative size reaches the array allocations (`np.zeros((k, c))` raises on a
negative dimension, and a negative `c` already makes the prior variable's
shape unknown), and any non-negative sizes — zero included — construct a
model.  The smoothing constant is the hard-coded `0.0000001`. -/
def multinomial_mixture_init (c k : ℤ) : Option ModelShape :=
  if c < 0 ∨ k < 0 then none
  else some ⟨c.toNat, k.toNat, 1 / 10000000⟩

/-- Mutable state of `MultinomialMixture.train` between epochs: the model
variables, the accumulator variables, the Python locals `old_likelihood`
(`none` is the initial `-np.inf`), `delta` (`none` is `+np.inf`) and
`current_epoch`. -/
structure TrainState (C K : ℕ) where
  params : MixtureParameters C K
  accumulator : Accumulator C K
  old_likelihood : Option ℚ
  delta : Option ℚ
  current_epoch : ℕ

/-- State set up by the prologue of `train` (lines 112-119 together with
`global_variables_initializer`): freshly initialised parameters `p0`,
accumulator at the smoothing floor, `old_likelihood = -np.inf`,
`delta = np.inf`, `current_epoch = 0`. -/
def init_state {C K : ℕ} (p0 : MixtureParameters C K) (smoothing : ℚ) : TrainState C K :=
  ⟨p0, init_accumulator C K smoothing, none, none, 0⟩

/-- The epoch's total likelihood: the per-epoch likelihood variable is reset
to zero and each batch adds its contribution `L p batch` (the oracle stands
for `reduce_sum(posterior * log numerator)`, whose transcendental logarithm
is not representable in exact rational arithmetic). -/
def epoch_likelihood {C K : ℕ} (L : MixtureParameters C K → List (Fin K) → ℚ)
    (p : MixtureParameters C K) (batches : List (List (Fin K))) : ℚ :=
  (batches.map (L p)).sum

/-- `delta = likelihood - old_likelihood`, where subtracting the initial
`-np.inf` gives `+np.inf` (`none`). -/
def delta_of (lik : ℚ) : Option ℚ → Option ℚ
  | none => none
  | some v => some (lik - v)

/-- The loop guard's second conjunct `delta > threshold`; the initial
`delta = np.inf` (`none`) exceeds every (finite) threshold. -/
def delta_gt (d : Option ℚ) (threshold : ℚ) : Bool :=
  match d with
  | none => true
  | some v => decide (threshold < v)

/-- The state after one full epoch body of `train` (lines 121-144): the
accumulator keeps absorbing the epoch's minibatches on top of whatever it
already held (no per-epoch reset appears in the source), the parameters are
replaced by `m_step_finalize` of that accumulator, the likelihood bookkeeping
is updated and the epoch counter advances. -/
def epoch_state {C K : ℕ} (L : MixtureParameters C K → List (Fin K) → ℚ)
    (batches : List (List (Fin K))) (s : TrainState C K) : TrainState C K :=
  ⟨m_step_finalize (run_epoch_accumulate s.params s.accumulator batches),
   run_epoch_accumulate s.params s.accumulator batches,
   some (epoch_likelihood L s.params batches),
   delta_of (epoch_likelihood L s.params batches) s.old_likelihood,
   s.current_epoch + 1⟩

/-- One epoch body as an `Option`: when the dataset yields no minibatch, the
Python local `likelihood` read by `delta = likelihood - old_likelihood` was
never bound, so the epoch raises (`none`); otherwise the epoch completes
with `epoch_state`. -/
def train_step {C K : ℕ} (L : MixtureParameters C K → List (Fin K) → ℚ)
    (batches : List (List (Fin K))) (s : TrainState C K) : Option (TrainState C K) :=
  if batches = [] then none else some (epoch_state L batches s)

/-- The `while current_epoch <= max_epochs and delta > threshold` loop of
`train`; the failing-empty-epoch case is inlined from `train_step` so the
recursion decreases on the remaining epoch budget (`train_loop_eq` below
restates the body through `train_step`). -/
def train_loop {C K : ℕ} (L : MixtureParameters C K → List (Fin K) → ℚ)
    (batches : List (List (Fin K))) (threshold : ℚ) (max_epochs : ℕ)
    (s : TrainState C K) : Option (TrainState C K) :=
  if hg : s.current_epoch ≤ max_epochs ∧ delta_gt s.delta threshold = true then
    if batches = [] then none
    else train_loop L batches threshold max_epochs (epoch_state L batches s)
  else some s
termination_by max_epochs + 1 - s.current_epoch
decreasing_by
  simp only [epoch_state]
  omega

/-- `MultinomialMixture.train`: build the initial state (accumulator at the
smoothing floor, `old_likelihood = -inf`, `delta = inf`, epoch 0) and run
the epoch loop; `none` is an uncaught Python exception. -/
def train {C K : ℕ} (L : MixtureParameters C K → List (Fin K) → ℚ)
    (p0 : MixtureParameters C K) (batches : List (List (Fin K)))
    (threshold : ℚ) (max_epochs : ℕ) (smoothing : ℚ) : Option (TrainState C K) :=
  train_loop L batches threshold max_epochs (init_state p0 smoothing)

/-- Concrete one-state, one-symbol parameters used to evaluate the
development on explicit inputs. -/
def p_unit : MixtureParameters 1 1 := ⟨fun _ => 1, fun _ _ => 1⟩

/-- Concrete two-state, two-symbol parameters (uniform everywhere). -/
def p_half : MixtureParameters 2 2 := ⟨fun _ => 1 / 2, fun _ _ => 1 / 2⟩

/-- Concrete likelihood oracle assigning every batch a zero contribution. -/
def L_zero : MixtureParameters 1 1 → List (Fin 1) → ℚ := fun _ _ => 0

/-- The source's hard-coded smoothing constant `0.0000001`. -/
def sm_default : ℚ := 1 / 10000000

/-! ## Supporting lemmas -/

/-- Summing a list of `Finset`-sums equals summing, per index, the list of
entries: the two orders of `reduce_sum` agree. -/
theorem list_sum_finset_sum {α ι M : Type*} [Fintype ι] [AddCommMonoid M]
    (l : List α) (f : α → ι → M) :
    (l.map (fun v => ∑ c, f v c)).sum = ∑ c, (l.map (fun v => f v c)).sum := by
  induction l with
  | nil => simp
  | cons x t ih => simp [ih, Finset.sum_add_distrib]

/-- Zipping a mapped list with the original list and consuming both
components pointwise is a single map. -/
theorem map_zip_self {α β γ : Type*} (f : α → β) (g : β → α → γ) :
    ∀ l : List α, ((l.map f).zip l).map (fun q => g q.1 q.2) = l.map (fun v => g (f v) v) := by
  intro l
  induction l with
  | nil => rfl
  | cons x t ih => simp [ih]

/-- Posterior entries are non-negative whenever prior and emission are. -/
theorem posterior_row_nonneg {C K : ℕ} (p : MixtureParameters C K)
    (hp : ∀ c, 0 ≤ p.prior c) (he : ∀ v c, 0 ≤ p.emission v c) (v : Fin K) (c : Fin C) :
    0 ≤ posterior_row p v c := by
  refine div_nonneg (mul_nonneg (he v c) (hp c)) ?_
  exact Finset.sum_nonneg fun x _ => mul_nonneg (he v x) (hp x)

/-- Each posterior row sums to one: the denominator is exactly the row sum
of the numerator and is positive under strictly positive parameters. -/
theorem posterior_row_sum_one {C K : ℕ} (hC : 0 < C) (p : MixtureParameters C K)
    (hp : ∀ c, 0 < p.prior c) (he : ∀ v c, 0 < p.emission v c) (v : Fin K) :
    ∑ c, posterior_row p v c = 1 := by
  have : Nonempty (Fin C) := Fin.pos_iff_nonempty.mp hC
  have hden : 0 < denominator_row p v :=
    Finset.sum_pos (fun c _ => mul_pos (he v c) (hp c)) Finset.univ_nonempty
  simp only [posterior_row]
  rw [← Finset.sum_div, ← denominator_row, div_self hden.ne']

/-- Summing the scatter's contributions over all `K` rows recovers the plain
column sum of the posterior: every example lands in exactly one row. -/
theorem scatter_sum_over_symbols {C K : ℕ} (p : MixtureParameters C K)
    (batch : List (Fin K)) (c : Fin C) :
    (∑ x : Fin K, (((batch.map (fun v c => posterior_row p v c)).zip batch).map
        (fun q => if q.2 = x then q.1 c else 0)).sum)
      = (batch.map (fun v => posterior_row p v c)).sum := by
  induction batch with
  | nil => simp
  | cons v t ih =>
    simp only [List.map_cons, List.zip_cons_cons, List.sum_cons, Finset.sum_add_distrib, ih]
    congr 1
    simp [Finset.sum_ite_eq]

/-- One accumulation run preserves the structural invariant: each denominator
is exactly the sum of its numerator over the normalised axis, and both stay
positive when the parameters driving the E-step are strictly positive. -/
theorem m_step_accumulate_invariant {C K : ℕ} (p : MixtureParameters C K)
    (acc : Accumulator C K) (batch : List (Fin K))
    (hp : ∀ c, 0 < p.prior c) (he : ∀ v c, 0 < p.emission v c)
    (h1 : acc.prior_denominator = ∑ c, acc.prior_numerator c)
    (h2 : ∀ c, acc.emission_denominator c = ∑ v, acc.emission_numerator v c)
    (h3 : 0 < acc.prior_denominator) (h4 : ∀ c, 0 < acc.emission_denominator c) :
    (m_step_accumulate p acc batch).prior_denominator
        = (∑ c, (m_step_accumulate p acc batch).prior_numerator c) ∧
    (∀ c, (m_step_accumulate p acc batch).emission_denominator c
        = ∑ v, (m_step_accumulate p acc batch).emission_numerator v c) ∧
    0 < (m_step_accumulate p acc batch).prior_denominator ∧
    ∀ c, 0 < (m_step_accumulate p acc batch).emission_denominator c := by
  have hpos : ∀ v c, 0 ≤ posterior_row p v c :=
    posterior_row_nonneg p (fun c => (hp c).le) (fun v c => (he v c).le)
  have hcol : ∀ c : Fin C, 0 ≤ (batch.map (fun v => posterior_row p v c)).sum := by
    intro c
    refine List.sum_nonneg ?_
    intro a ha
    obtain ⟨v, _, rfl⟩ := List.mem_map.mp ha
    exact hpos v c
  refine ⟨?_, ?_, ?_, ?_⟩
  · simp only [m_step_accumulate, posterior_estimate, List.map_map, Function.comp_def]
    rw [Finset.sum_add_distrib, ← h1, list_sum_finset_sum]
  · intro c
    simp only [m_step_accumulate, posterior_estimate, List.map_map, Function.comp_def]
    rw [Finset.sum_add_distrib, ← h2 c, scatter_sum_over_symbols]
  · simp only [m_step_accumulate, posterior_estimate, List.map_map, Function.comp_def]
    have : 0 ≤ (batch.map (fun v => ∑ c, posterior_row p v c)).sum := by
      refine List.sum_nonneg ?_
      intro a ha
      obtain ⟨v, _, rfl⟩ := List.mem_map.mp ha
      exact Finset.sum_nonneg fun c _ => hpos v c
    linarith
  · intro c
    simp only [m_step_accumulate, posterior_estimate, List.map_map, Function.comp_def]
    have := hcol c
    have := h4 c
    linarith

/-- The invariant propagates from any accumulator through any sequence of
accumulation runs whose parameters are all strictly positive. -/
theorem fold_steps_invariant {C K : ℕ}
    (steps : List (MixtureParameters C K × List (Fin K)))
    (hpos : ∀ q ∈ steps, (∀ c, 0 < q.1.prior c) ∧ ∀ v c, 0 < q.1.emission v c) :
    ∀ acc : Accumulator C K,
      acc.prior_denominator = (∑ c, acc.prior_numerator c) →
      (∀ c, acc.emission_denominator c = ∑ v, acc.emission_numerator v c) →
      0 < acc.prior_denominator →
      (∀ c, 0 < acc.emission_denominator c) →
      (steps.foldl (fun a q => m_step_accumulate q.1 a q.2) acc).prior_denominator
          = (∑ c, (steps.foldl (fun a q => m_step_accumulate q.1 a q.2) acc).prior_numerator c) ∧
      (∀ c, (steps.foldl (fun a q => m_step_accumulate q.1 a q.2) acc).emission_denominator c
          = ∑ v, (steps.foldl (fun a q => m_step_accumulate q.1 a q.2) acc).emission_numerator v c) ∧
      0 < (steps.foldl (fun a q => m_step_accumulate q.1 a q.2) acc).prior_denominator ∧
      ∀ c, 0 < (steps.foldl (fun a q => m_step_accumulate q.1 a q.2) acc).emission_denominator c := by
  induction steps with
  | nil =>
    intro acc h1 h2 h3 h4
    exact ⟨h1, h2, h3, h4⟩
  | cons q t ih =>
    intro acc h1 h2 h3 h4
    have hq := hpos q (List.mem_cons_self q t)
    have hstep := m_step_accumulate_invariant q.1 acc q.2 hq.1 hq.2 h1 h2 h3 h4
    have ht : ∀ r ∈ t, (∀ c, 0 < r.1.prior c) ∧ ∀ v c, 0 < r.1.emission v c :=
      fun r hr => hpos r (List.mem_cons_of_mem q hr)
    simpa using ih ht (m_step_accumulate q.1 acc q.2) hstep.1 hstep.2.1 hstep.2.2.1 hstep.2.2.2

/-- Accumulating a batch is the same as accumulating its head as a singleton
batch and then the rest: every accumulator field is a running sum. -/
theorem m_step_accumulate_cons {C K : ℕ} (p : MixtureParameters C K)
    (acc : Accumulator C K) (v : Fin K) (t : List (Fin K)) :
    m_step_accumulate p acc (v :: t)
      = m_step_accumulate p (m_step_accumulate p acc [v]) t := by
  ext <;> simp [m_step_accumulate, posterior_estimate, add_assoc]

/-- Accumulating the empty batch changes nothing. -/
theorem m_step_accumulate_nil {C K : ℕ} (p : MixtureParameters C K)
    (acc : Accumulator C K) : m_step_accumulate p acc [] = acc := by
  ext <;> simp [m_step_accumulate, posterior_estimate]

/-- A batch accumulation is the left fold of its examples, one at a time. -/
theorem m_step_accumulate_eq_foldl {C K : ℕ} (p : MixtureParameters C K) :
    ∀ (batch : List (Fin K)) (acc : Accumulator C K),
      m_step_accumulate p acc batch
        = batch.foldl (fun a v => m_step_accumulate p a [v]) acc := by
  intro batch
  induction batch with
  | nil => intro acc; exact m_step_accumulate_nil p acc
  | cons v t ih =>
    intro acc
    rw [m_step_accumulate_cons, List.foldl_cons, ih]

/-- An epoch's accumulation over a batch partition is the fold of the
flattened example stream. -/
theorem run_epoch_accumulate_flatten {C K : ℕ} (p : MixtureParameters C K) :
    ∀ (batches : List (List (Fin K))) (acc : Accumulator C K),
      run_epoch_accumulate p acc batches
        = batches.flatten.foldl (fun a v => m_step_accumulate p a [v]) acc := by
  intro batches
  induction batches with
  | nil => intro acc; rfl
  | cons b t ih =>
    intro acc
    rw [run_epoch_accumulate, List.foldl_cons, List.flatten_cons, List.foldl_append,
      ← m_step_accumulate_eq_foldl p b acc]
    exact ih (m_step_accumulate p acc b)

/-- Two single-example accumulations commute: all updates are additions. -/
theorem single_accumulate_comm {C K : ℕ} (p : MixtureParameters C K)
    (a : Accumulator C K) (v w : Fin K) :
    m_step_accumulate p (m_step_accumulate p a [v]) [w]
      = m_step_accumulate p (m_step_accumulate p a [w]) [v] := by
  ext <;> simp [m_step_accumulate, posterior_estimate] <;> ring

/-- Left folds of a right-commutative operation agree on permuted lists. -/
theorem foldl_eq_of_perm {α β : Type*} (f : β → α → β)
    (hf : ∀ b a1 a2, f (f b a1) a2 = f (f b a2) a1) :
    ∀ {l1 l2 : List α}, l1.Perm l2 → ∀ b, l1.foldl f b = l2.foldl f b := by
  intro l1 l2 h
  induction h with
  | nil => intro b; rfl
  | cons x _ ih => intro b; simp only [List.foldl_cons]; exact ih (f b x)
  | swap x y l => intro b; simp only [List.foldl_cons]; rw [hf]
  | trans _ _ ih1 ih2 => intro b; rw [ih1, ih2]

/-- Characterisation of `np_argmax` on a non-empty list: the result is a
valid index, it attains the maximum, and every strictly earlier index holds
a strictly smaller value — so ties are broken by the lowest index. -/
theorem np_argmax_spec :
    ∀ l : List ℚ, l ≠ [] →
      np_argmax l < l.length ∧
      (∀ i, i < l.length → l.getD i 0 ≤ l.getD (np_argmax l) 0) ∧
      (∀ i, i < np_argmax l → l.getD i 0 < l.getD (np_argmax l) 0) := by
  intro l
  induction l with
  | nil => intro h; exact absurd rfl h
  | cons x t ih =>
    intro _
    cases t with
    | nil =>
      refine ⟨by simp [np_argmax], ?_, ?_⟩
      · intro i hi
        simp only [List.length_singleton, Nat.lt_one_iff] at hi
        subst hi
        simp [np_argmax]
      · intro i hi
        simp [np_argmax] at hi
    | cons y l2 =>
      obtain ⟨hm, hmax, hfirst⟩ := ih (by simp)
      show (np_argmax (x :: y :: l2) < (x :: y :: l2).length ∧ _ ∧ _)
      rw [np_argmax]
      by_cases hx : x < (y :: l2).getD (np_argmax (y :: l2)) 0
      · rw [if_pos hx]
        refine ⟨by simpa using hm, ?_, ?_⟩
        · intro i hi
          cases i with
          | zero => simpa using hx.le
          | succ j =>
            simp only [List.getD_cons_succ]
            exact hmax j (by simpa using hi)
        · intro i hi
          cases i with
          | zero => simpa using hx
          | succ j =>
            simp only [List.getD_cons_succ]
            exact hfirst j (by omega)
      · rw [if_neg hx]
        refine ⟨by simp, ?_, ?_⟩
        · intro i hi
          cases i with
          | zero => simp
          | succ j =>
            simp only [List.getD_cons_succ, List.getD_cons_zero]
            exact le_trans (hmax j (by simpa using hi)) (le_of_not_lt hx)
        · intro i hi
          exact absurd hi (by omega)

/-- Folding the remaining batches of `perform_inference` after a first batch
has produced a value keeps appending, in order. -/
theorem perform_inference_foldl_some {C K : ℕ} (p : MixtureParameters C K) :
    ∀ (batches : List (List (Fin K))) (ps : List ℕ),
      batches.foldl
          (fun predictions batch =>
            match predictions with
            | none => some (inference_batch p batch)
            | some qs => some (qs ++ inference_batch p batch))
          (some ps)
        = some (ps ++ (batches.map (inference_batch p)).flatten) := by
  intro batches
  induction batches with
  | nil => intro ps; simp
  | cons b t ih =>
    intro ps
    simp only [List.foldl_cons, List.map_cons, List.flatten_cons, ih, List.append_assoc]

/-- On a dataset with at least one batch, `perform_inference` returns the
per-example inferred states of the flattened example stream, in order. -/
theorem perform_inference_eq {C K : ℕ} (p : MixtureParameters C K)
    (batches : List (List (Fin K))) (hne : batches ≠ []) :
    perform_inference p batches = some (batches.flatten.map (inference_row p)) := by
  cases batches with
  | nil => exact absurd rfl hne
  | cons b t =>
    rw [perform_inference, List.foldl_cons]
    have : (match (none : Option (List ℕ)) with
        | none => some (inference_batch p b)
        | some qs => some (qs ++ inference_batch p b)) = some (inference_batch p b) := rfl
    rw [this, perform_inference_foldl_some]
    have hib : inference_batch p = List.map (inference_row p) := funext fun b2 => rfl
    simp [List.map_flatten, hib]

/-- The epoch loop always terminates with a final state once the dataset is
non-empty, and the epoch counter never decreases along the way. -/
theorem train_loop_total {C K : ℕ} (L : MixtureParameters C K → List (Fin K) → ℚ)
    (batches : List (List (Fin K))) (threshold : ℚ) (max_epochs : ℕ)
    (hne : batches ≠ []) :
    ∀ (n : ℕ) (s : TrainState C K), max_epochs + 1 - s.current_epoch ≤ n →
      ∃ s2, train_loop L batches threshold max_epochs s = some s2 ∧
        s.current_epoch ≤ s2.current_epoch := by
  intro n
  induction n with
  | zero =>
    intro s hs
    rw [train_loop, dif_neg (fun hg => by omega)]
    exact ⟨s, rfl, le_refl _⟩
  | succ n ih =>
    intro s hs
    by_cases hg : s.current_epoch ≤ max_epochs ∧ delta_gt s.delta threshold = true
    · rw [train_loop, dif_pos hg, if_neg hne]
      obtain ⟨s2, heq, hle⟩ := ih (epoch_state L batches s)
        (by simp only [epoch_state]; omega)
      refine ⟨s2, heq, ?_⟩
      simp only [epoch_state] at hle
      omega
    · rw [train_loop, dif_neg hg]
      exact ⟨s, rfl, le_refl _⟩

/-- A batch containing any out-of-range label makes the gather fail. -/
theorem gather_emission_rows_out_of_range {C K : ℕ} (p : MixtureParameters C K) :
    ∀ labels : List ℕ, (∃ v ∈ labels, K ≤ v) → gather_emission_rows p labels = none := by
  intro labels
  induction labels with
  | nil =>
    intro h
    obtain ⟨v, hv, _⟩ := h
    simp at hv
  | cons a t ih =>
    intro h
    obtain ⟨v, hv, hKv⟩ := h
    simp only [gather_emission_rows]
    rcases List.mem_cons.mp hv with h1 | h2
    · subst h1
      rw [dif_neg (by omega)]
    · by_cases ha : a < K
      · rw [dif_pos ha, ih ⟨v, h2, hKv⟩]
        rfl
      · rw [dif_neg ha]

/-! ## Claim theorems -/

/-- C2: from the initial accumulator, any sequence of `m_step_accumulate`
runs on batches of in-range labels (each run driven by strictly positive
parameters, as the smoothed model maintains) keeps every denominator equal
to the sum of its numerator over the normalised axis, so `m_step_finalize`
returns a prior summing to 1 and an emission matrix each of whose columns
sums to 1, exactly, in exact arithmetic. -/
theorem m_step_finalize_normalizes {C K : ℕ} (smoothing : ℚ) (hC : 0 < C) (hK : 0 < K)
    (hs : 0 < smoothing) (steps : List (MixtureParameters C K × List (Fin K)))
    (hpos : ∀ q ∈ steps, (∀ c, 0 < q.1.prior c) ∧ ∀ v c, 0 < q.1.emission v c) :
    (run_steps C K smoothing steps).prior_denominator
        = (∑ c, (run_steps C K smoothing steps).prior_numerator c) ∧
    (∀ c, (run_steps C K smoothing steps).emission_denominator c
        = ∑ v, (run_steps C K smoothing steps).emission_numerator v c) ∧
    (∑ c, (m_step_finalize (run_steps C K smoothing steps)).prior c) = 1 ∧
    ∀ c, (∑ v, (m_step_finalize (run_steps C K smoothing steps)).emission v c) = 1 := by
  have hinit1 : (init_accumulator C K smoothing).prior_denominator
      = ∑ c, (init_accumulator C K smoothing).prior_numerator c := by
    simp [init_accumulator, Finset.sum_const, Finset.card_univ, mul_comm]
  have hinit2 : ∀ c, (init_accumulator C K smoothing).emission_denominator c
      = ∑ v, (init_accumulator C K smoothing).emission_numerator v c := by
    intro c
    simp [init_accumulator, Finset.sum_const, Finset.card_univ, mul_comm]
  have hinit3 : 0 < (init_accumulator C K smoothing).prior_denominator :=
    mul_pos hs (by exact_mod_cast hC)
  have hinit4 : ∀ c, 0 < (init_accumulator C K smoothing).emission_denominator c :=
    fun c => mul_pos hs (by exact_mod_cast hK)
  have h := fold_steps_invariant steps hpos (init_accumulator C K smoothing)
    hinit1 hinit2 hinit3 hinit4
  rw [run_steps]
  obtain ⟨h1, h2, h3, h4⟩ := h
  refine ⟨h1, h2, ?_, ?_⟩
  · simp only [m_step_finalize]
    rw [← Finset.sum_div, ← h1, div_self h3.ne']
  · intro c
    simp only [m_step_finalize]
    rw [← Finset.sum_div, ← h2 c, div_self (h4 c).ne']

/-- Witness for C2 at a concrete input: one accumulation of the batch `[0]`
under uniform positive parameters, with the default smoothing. -/
theorem m_step_finalize_normalizes_witness :
    (∑ c, (m_step_finalize (run_steps 2 2 sm_default [(p_half, [0])])).prior c) = 1 :=
  (m_step_finalize_normalizes sm_default (by decide) (by decide)
    (by norm_num [sm_default]) [(p_half, [0])]
    (by
      intro q hq
      rw [List.mem_singleton] at hq
      subst hq
      exact ⟨fun c => by norm_num [p_half], fun v c => by norm_num [p_half]⟩)).2.2.1

/-- C3: for a batch of in-range labels under strictly positive prior and
emission, every row of the E-step's `posterior_estimate` sums to 1. -/
theorem posterior_rows_sum_to_one {C K : ℕ} (hC : 0 < C) (p : MixtureParameters C K)
    (hp : ∀ c, 0 < p.prior c) (he : ∀ v c, 0 < p.emission v c)
    (batch : List (Fin K)) (row : Fin C → ℚ)
    (hrow : row ∈ posterior_estimate p batch) :
    ∑ c, row c = 1 := by
  obtain ⟨v, _, rfl⟩ := List.mem_map.mp hrow
  exact posterior_row_sum_one hC p hp he v

/-- Witness for C3 at a concrete input: the single row of the posterior of
the batch `[0]` under uniform positive parameters. -/
theorem posterior_rows_sum_to_one_witness :
    ∑ c, (fun c => posterior_row p_half 0 c) c = 1 :=
  posterior_rows_sum_to_one (by decide) p_half
    (fun c => by norm_num [p_half]) (fun v c => by norm_num [p_half])
    [0] (fun c => posterior_row p_half 0 c) (List.mem_singleton.mpr rfl)

/-- C6: two partitions of the same multiset of in-range observations into
minibatches, folded from the same reset accumulator under the same fixed
parameters, accumulate to the same sums, and hence `m_step_finalize`
produces the same parameters (exactly, in exact arithmetic). -/
theorem accumulation_partition_independent {C K : ℕ} (smoothing : ℚ)
    (p : MixtureParameters C K) (b1 b2 : List (List (Fin K)))
    (hperm : b1.flatten.Perm b2.flatten) :
    run_epoch_accumulate p (init_accumulator C K smoothing) b1
        = run_epoch_accumulate p (init_accumulator C K smoothing) b2 ∧
    m_step_finalize (run_epoch_accumulate p (init_accumulator C K smoothing) b1)
        = m_step_finalize (run_epoch_accumulate p (init_accumulator C K smoothing) b2) := by
  have h : run_epoch_accumulate p (init_accumulator C K smoothing) b1
      = run_epoch_accumulate p (init_accumulator C K smoothing) b2 := by
    rw [run_epoch_accumulate_flatten p b1, run_epoch_accumulate_flatten p b2]
    exact foldl_eq_of_perm _ (fun a v w => single_accumulate_comm p a v w) hperm _
  exact ⟨h, congrArg m_step_finalize h⟩

/-- Witness for C6 at a concrete input: the partitions `[[0],[1]]` and
`[[1,0]]` of the two-example multiset. -/
theorem accumulation_partition_independent_witness :
    run_epoch_accumulate p_half (init_accumulator 2 2 sm_default) [[0], [1]]
      = run_epoch_accumulate p_half (init_accumulator 2 2 sm_default) [[1, 0]] :=
  (accumulation_partition_independent sm_default p_half [[0], [1]] [[1, 0]] (by decide)).1

/-- C7: on a dataset with at least one batch, `perform_inference` returns
exactly one hidden-state label per input example, in input order with the
batches concatenated in enumeration order; each example's label is the
argmax over states of `numerator = prior * emission-for-label`, with ties
broken by the lowest state index. -/
theorem inference_output_spec {C K : ℕ} (hC : 0 < C) (p : MixtureParameters C K)
    (batches : List (List (Fin K))) (hne : batches ≠ []) :
    perform_inference p batches = some (batches.flatten.map (inference_row p)) ∧
    ∀ v : Fin K,
      inference_row p v < C ∧
      (∀ i, i < C → (numerator_list p v).getD i 0
          ≤ (numerator_list p v).getD (inference_row p v) 0) ∧
      (∀ i, i < inference_row p v → (numerator_list p v).getD i 0
          < (numerator_list p v).getD (inference_row p v) 0) ∧
      ∀ c : Fin C, (numerator_list p v).getD c.val 0 = p.emission v c * p.prior c := by
  refine ⟨perform_inference_eq p batches hne, ?_⟩
  intro v
  have hlen : (numerator_list p v).length = C := by simp [numerator_list]
  have hnil : numerator_list p v ≠ [] := by
    intro h0
    rw [h0] at hlen
    simp at hlen
    omega
  obtain ⟨h1, h2, h3⟩ := np_argmax_spec (numerator_list p v) hnil
  rw [hlen] at h1
  refine ⟨h1, fun i hi => h2 i (by rw [hlen]; exact hi), h3, ?_⟩
  intro c
  have hcv : c.val < (numerator_list p v).length := by rw [hlen]; exact c.isLt
  rw [List.getD_eq_getElem _ _ hcv]
  simp [numerator_list, numerator_row]

/-- Witness for C7 at a concrete input: a single batch of both symbols under
the uniform two-state parameters. -/
theorem inference_output_spec_witness :
    perform_inference p_half [[0, 1]]
      = some (([[0, 1]] : List (List (Fin 2))).flatten.map (inference_row p_half)) :=
  (inference_output_spec (by decide) p_half [[0, 1]] (by decide)).1

/-- C1 counterexample: in an actual `train` run (one state, one symbol,
uniform parameters, the single batch `[0]`), the state entering the second
epoch — the output of the first epoch body — does not hold an accumulator
reset to the smoothing floor: its `prior_den_acc` cell has grown by the
first epoch's posterior mass. The epoch loop of `train` resets only the
likelihood variable; no accumulator reset appears in its body. -/
theorem accumulator_carries_over_at_second_epoch_start :
    ((train_step L_zero [[0]] (init_state p_unit sm_default)).map
        (fun s => s.accumulator.prior_denominator))
      ≠ some ((init_accumulator 1 1 sm_default).prior_denominator) := by
  simp [train_step, epoch_state, init_state, run_epoch_accumulate, m_step_accumulate,
    posterior_estimate, posterior_row, numerator_row, denominator_row, init_accumulator,
    sm_default, p_unit, L_zero, Fin.sum_univ_one]

/-- C1 amended: the accumulator is set to the smoothing floor once, by the
prologue of `train`; every epoch body then folds its minibatches onto the
accumulator inherited from all previous epochs, and `m_step_finalize`
consumes those cumulative sums — so the sums it consumes at the end of epoch
`e` cover the minibatches of epochs `1..e`, not of epoch `e` alone. -/
theorem epoch_body_extends_incoming_accumulator {C K : ℕ}
    (L : MixtureParameters C K → List (Fin K) → ℚ) (batches : List (List (Fin K)))
    (s : TrainState C K) (hne : batches ≠ []) :
    (∀ (p0 : MixtureParameters C K) (smoothing : ℚ),
        (init_state p0 smoothing).accumulator = init_accumulator C K smoothing) ∧
    train_step L batches s
      = some ⟨m_step_finalize (run_epoch_accumulate s.params s.accumulator batches),
              run_epoch_accumulate s.params s.accumulator batches,
              some (epoch_likelihood L s.params batches),
              delta_of (epoch_likelihood L s.params batches) s.old_likelihood,
              s.current_epoch + 1⟩ :=
  ⟨fun _ _ => rfl, by rw [train_step, if_neg hne]; rfl⟩

/-- Witness for the amended C1 at a concrete input: the first epoch body of
a run on the singleton dataset `[[0]]`. -/
theorem epoch_body_extends_incoming_accumulator_witness :
    train_step L_zero [[0]] (init_state p_unit sm_default)
      = some ⟨m_step_finalize (run_epoch_accumulate (init_state p_unit sm_default).params
                (init_state p_unit sm_default).accumulator [[0]]),
              run_epoch_accumulate (init_state p_unit sm_default).params
                (init_state p_unit sm_default).accumulator [[0]],
              some (epoch_likelihood L_zero (init_state p_unit sm_default).params [[0]]),
              delta_of (epoch_likelihood L_zero (init_state p_unit sm_default).params [[0]])
                (init_state p_unit sm_default).old_likelihood,
              (init_state p_unit sm_default).current_epoch + 1⟩ :=
  (epoch_body_extends_incoming_accumulator L_zero [[0]]
    (init_state p_unit sm_default) (by decide)).2

/-- C4: a batch containing any observation value outside `[0, K)` is
rejected: the gather of emission rows fails before producing any row, so the
per-batch step of `train` accumulates nothing and the per-batch step of
`perform_inference` produces no predictions — the out-of-range value never
silently indexes the emission matrix. -/
theorem out_of_range_batch_rejected {C K : ℕ} (p : MixtureParameters C K)
    (acc : Accumulator C K) (labels : List ℕ) (hbad : ∃ v ∈ labels, K ≤ v) :
    gather_emission_rows p labels = none ∧
    train_batch_raw p acc labels = none ∧
    inference_batch_raw p labels = none := by
  have hg := gather_emission_rows_out_of_range p labels hbad
  exact ⟨hg, by rw [train_batch_raw, e_step_raw, hg]; rfl,
    by rw [inference_batch_raw, hg]; rfl⟩

/-- Witness for C4 at a concrete input: the batch `[2]` against a model with
alphabet size `K = 2`. -/
theorem out_of_range_batch_rejected_witness :
    gather_emission_rows p_half [2] = none ∧
    train_batch_raw p_half (init_accumulator 2 2 sm_default) [2] = none ∧
    inference_batch_raw p_half [2] = none :=
  out_of_range_batch_rejected p_half (init_accumulator 2 2 sm_default) [2] (by decide)

/-- C5 counterexample: constructing the model with zero hidden states (a
non-positive `C`) does not fail — `MultinomialMixture.__init__` contains no
validation, and every allocation accepts a zero dimension, so a degenerate
model is constructed. -/
theorem zero_states_constructs_model : multinomial_mixture_init 0 2 ≠ none := by decide

/-- C5 amended: construction fails exactly for a negative `C` or `K` (the
failure being raised by the underlying array allocation, not by any check in
the constructor); zero sizes are accepted and construct a degenerate model. -/
theorem init_fails_iff_negative (c k : ℤ) :
    multinomial_mixture_init c k = none ↔ c < 0 ∨ k < 0 := by
  rw [multinomial_mixture_init]
  split <;> simp_all

/-- C8: for every epoch budget (zero included) and every finite threshold,
`train` on a non-empty dataset always completes its first epoch before any
terminal condition can stop it: the loop guard is first evaluated against
`current_epoch = 0 ≤ max_epochs` and the initial `delta = +inf`, which
exceeds every threshold. -/
theorem train_runs_first_epoch {C K : ℕ} (L : MixtureParameters C K → List (Fin K) → ℚ)
    (p0 : MixtureParameters C K) (batches : List (List (Fin K)))
    (threshold : ℚ) (max_epochs : ℕ) (smoothing : ℚ) (hne : batches ≠ []) :
    ∃ s2, train L p0 batches threshold max_epochs smoothing = some s2 ∧
      1 ≤ s2.current_epoch := by
  rw [train, train_loop, dif_pos ⟨Nat.zero_le max_epochs, rfl⟩, if_neg hne]
  obtain ⟨s2, heq, hle⟩ := train_loop_total L batches threshold max_epochs hne
    (max_epochs + 1) (epoch_state L batches (init_state p0 smoothing))
    (by simp only [epoch_state, init_state]; omega)
  refine ⟨s2, heq, ?_⟩
  simp only [epoch_state, init_state] at hle
  omega

/-- Witness for C8 at a concrete input: a zero epoch budget and zero
threshold on the singleton dataset `[[0]]`; the run still performs one
epoch. -/
theorem train_runs_first_epoch_witness :
    ∃ s2, train L_zero p_unit [[0]] 0 0 sm_default = some s2 ∧ 1 ≤ s2.current_epoch :=
  train_runs_first_epoch L_zero p_unit [[0]] 0 0 sm_default (by decide)

/-- C9: on a dataset yielding zero minibatches, `train` does not return
normally: the first epoch body reads the per-batch `likelihood` local that
no loop iteration ever bound, so the run raises. -/
theorem train_empty_dataset_none {C K : ℕ} (L : MixtureParameters C K → List (Fin K) → ℚ)
    (p0 : MixtureParameters C K) (threshold : ℚ) (max_epochs : ℕ) (smoothing : ℚ) :
    train L p0 [] threshold max_epochs smoothing = none := by
  rw [train, train_loop, dif_pos ⟨Nat.zero_le max_epochs, rfl⟩, if_pos rfl]

/-- C10: `perform_inference` on a dataset yielding zero batches returns the
sentinel `None` it starts from, not an empty sequence of assignments. -/
theorem perform_inference_empty_none {C K : ℕ} (p : MixtureParameters C K) :
    perform_inference p [] = none := rfl

/-- C7 counterexample: on a dataset yielding zero batches, `perform_inference`
does not return the (empty) sequence of per-example labels — it returns the
`None` sentinel instead, so the output characterisation fails on the empty
dataset. -/
theorem inference_empty_dataset_not_labels :
    perform_inference p_half []
      ≠ some (([] : List (List (Fin 2))).flatten.map (inference_row p_half)) := by
  decide
